import Mathlib

/-!
# Verification of the nengo_spa core semantics

This development embeds the core algebra and data model of the `nengo_spa`
Vector Symbolic Architecture engine: semantic pointers (fixed-dimension real
vectors, embedded with exact rational components; indices taken in `ZMod D`
so that circular index arithmetic is ordinary subtraction), circular
convolution binding and its approximate inverse, vocabularies with
constrained pointer generation, casting between vocabularies, and
winner-take-all action selection.

The repository sources available here are the example notebooks only; the
library code itself (semantic-pointer algebra, `Vocabulary`, casting, action
selection) is therefore modelled from the specification, as indicated by the
doc comments below.
-/

namespace NengoSpa

/-- A semantic-pointer vector of dimension `D` with entries in `R`; indices are
taken in `ZMod D` so that the circular index arithmetic `(k - i) mod D` is
ordinary subtraction. -/
abbrev Vec (D : ℕ) (R : Type) := ZMod D → R

/-- Modelled from the spec: "Exact circular convolution of vectors
`a, b ∈ R^D`: `c[k] = Σ_i a[i] * b[(k - i) mod D]`" (§4.4).  The library's
`SemanticPointer.__mul__` is not in the provided sources. -/
def bind {D : ℕ} {R : Type} [CommRing R] [NeZero D] (a b : Vec D R) : Vec D R :=
  fun k => ∑ i : ZMod D, a i * b (k - i)

/-- Modelled from the spec: "Approximate inverse of `b`: reverse all
components except index 0" (§4.4); in `ZMod D` indices this is `k ↦ b (-k)`. -/
def approxInv {D : ℕ} {R : Type} (b : Vec D R) : Vec D R :=
  fun k => b (-k)

/-- Modelled from the spec: unbinding is binding with the approximate
inverse (§4.4, glossary). -/
def unbind {D : ℕ} {R : Type} [CommRing R] [NeZero D] (c b : Vec D R) : Vec D R :=
  bind c (approxInv b)

/-- Modelled from the spec: dot product / similarity of two pointers. -/
def dot {D : ℕ} {R : Type} [CommRing R] [NeZero D] (a b : Vec D R) : R :=
  ∑ i : ZMod D, a i * b i

/-- The basis vector with `1` at index `j` and `0` elsewhere; `shiftDelta R 0`
is the identity of circular convolution. -/
def shiftDelta {D : ℕ} (R : Type) [CommRing R] (j : ZMod D) : Vec D R :=
  fun k => if k = j then 1 else 0

section BindAlgebra

variable {D : ℕ} {R : Type} [CommRing R] [NeZero D]

theorem bind_comm_lemma (a b : Vec D R) : bind a b = bind b a := by
  funext k
  unfold bind
  refine Fintype.sum_equiv (Equiv.subLeft k) _ _ (fun i => ?_)
  simp [Equiv.subLeft, mul_comm]

theorem bind_assoc_lemma (a b c : Vec D R) :
    bind (bind a b) c = bind a (bind b c) := by
  funext k
  unfold bind
  simp only [Finset.sum_mul, Finset.mul_sum]
  rw [Finset.sum_comm]
  refine Finset.sum_congr rfl (fun i _ => ?_)
  refine Fintype.sum_equiv (Equiv.subRight i) _ _ (fun j => ?_)
  simp only [Equiv.subRight_apply]
  have h : k - i - (j - i) = k - j := by ring
  rw [h]
  ring

theorem bind_shiftDelta (i j : ZMod D) :
    bind (shiftDelta R i) (shiftDelta R j) = shiftDelta (D := D) R (i + j) := by
  funext k
  unfold bind shiftDelta
  rw [Finset.sum_eq_single i]
  · by_cases h : k = i + j
    · subst h
      simp
    · have h2 : ¬ (k - i = j) := fun hc => h (by rw [← hc]; ring)
      simp [h, h2]
  · intro m _ hm
    simp [hm]
  · intro h
    exact absurd (Finset.mem_univ i) h

theorem bind_delta (a : Vec D R) : bind a (shiftDelta R 0) = a := by
  funext k
  unfold bind shiftDelta
  rw [Finset.sum_eq_single k]
  · simp
  · intro m _ hm
    have h : ¬ (k - m = 0) := fun hc => hm (sub_eq_zero.mp hc).symm
    simp [h]
  · intro h
    exact absurd (Finset.mem_univ k) h

theorem bind_add_left (x y z : Vec D R) :
    bind (x + y) z = bind x z + bind y z := by
  funext k
  unfold bind
  simp [Pi.add_apply, add_mul, Finset.sum_add_distrib]

theorem bind_smul_left (c : R) (x z : Vec D R) :
    bind (c • x) z = c • bind x z := by
  funext k
  unfold bind
  simp [Finset.mul_sum, mul_assoc]

theorem bind_add_right (x y z : Vec D R) :
    bind x (y + z) = bind x y + bind x z := by
  rw [bind_comm_lemma, bind_add_left, bind_comm_lemma y x, bind_comm_lemma z x]

theorem bind_smul_right (c : R) (x z : Vec D R) :
    bind x (c • z) = c • bind x z := by
  rw [bind_comm_lemma, bind_smul_left, bind_comm_lemma z x]

theorem dot_add_left (x y z : Vec D R) :
    dot (x + y) z = dot x z + dot y z := by
  unfold dot
  simp [add_mul, Finset.sum_add_distrib]

theorem dot_add_right (x y z : Vec D R) :
    dot x (y + z) = dot x y + dot x z := by
  unfold dot
  simp [mul_add, Finset.sum_add_distrib]

theorem dot_smul_left (c : R) (x z : Vec D R) :
    dot (c • x) z = c * dot x z := by
  unfold dot
  simp [Finset.mul_sum, mul_assoc]

theorem dot_smul_right (c : R) (x z : Vec D R) :
    dot x (c • z) = c * dot x z := by
  unfold dot
  rw [Finset.mul_sum]
  refine Finset.sum_congr rfl (fun i _ => ?_)
  simp
  ring

theorem dot_shiftDelta (i j : ZMod D) :
    dot (shiftDelta R i) (shiftDelta R j) = if i = j then 1 else 0 := by
  unfold dot shiftDelta
  rw [Finset.sum_eq_single i]
  · by_cases h : i = j <;> simp [h]
  · intro m _ hm
    simp [hm]
  · intro h
    exact absurd (Finset.mem_univ i) h

omit [NeZero D] in
theorem approxInv_shiftDelta (j : ZMod D) :
    approxInv (shiftDelta R j) = shiftDelta R (-j) := by
  funext k
  unfold approxInv shiftDelta
  by_cases h : k = -j
  · simp [h]
  · have h2 : ¬ (-k = j) := fun hc => h (by rw [← hc]; ring)
    simp [h, h2]

omit [NeZero D] in
theorem approxInv_add (x y : Vec D R) :
    approxInv (x + y) = approxInv x + approxInv y := rfl

omit [NeZero D] in
theorem approxInv_smul (c : R) (x : Vec D R) :
    approxInv (c • x) = c • approxInv x := rfl

end BindAlgebra

section Cosine

/-- Key inequality for cosine-similarity bounds: `x / √N ≤ t` follows from
`x² ≤ t² N` for nonnegative `x`, `t`, `N`. -/
theorem div_sqrt_le_of_sq (x N t : ℝ) (_ : 0 ≤ N) (ht : 0 ≤ t) (hx : 0 ≤ x)
    (h : x ^ 2 ≤ t ^ 2 * N) : x / Real.sqrt N ≤ t := by
  rcases eq_or_lt_of_le (Real.sqrt_nonneg N) with hs | hs
  · rw [← hs]
    simpa using ht
  · rw [div_le_iff₀ hs]
    have h1 : x = Real.sqrt (x ^ 2) := (Real.sqrt_sq hx).symm
    have h2 : Real.sqrt (x ^ 2) ≤ Real.sqrt (t ^ 2 * N) := Real.sqrt_le_sqrt h
    have h3 : Real.sqrt (t ^ 2 * N) = t * Real.sqrt N := by
      rw [Real.sqrt_mul (sq_nonneg t), Real.sqrt_sq ht]
    rw [h1]
    rw [h3] at h2
    exact h2

/-- `x / √N = 1` when `x > 0` and `x² = N`. -/
theorem div_sqrt_eq_one_of_sq (x N : ℝ) (hx : 0 < x) (h : x ^ 2 = N) :
    x / Real.sqrt N = 1 := by
  rw [← h, Real.sqrt_sq hx.le, div_self hx.ne.symm]

/-- Cosine similarity of two rational vectors, as a real number (the spec's
similarity measure: dot product normalized by Euclidean lengths). -/
noncomputable def cosineSim {D : ℕ} [NeZero D] (u v : Vec D ℚ) : ℝ :=
  ((dot u v : ℚ) : ℝ) / Real.sqrt (((dot u u : ℚ) : ℝ) * ((dot v v : ℚ) : ℝ))

variable {D : ℕ} [NeZero D]

theorem dot_self_nonneg (v : Vec D ℚ) : 0 ≤ dot v v :=
  Finset.sum_nonneg (fun i _ => mul_self_nonneg (v i))

theorem dot_self_pos (v : Vec D ℚ) (hv : v ≠ 0) : 0 < dot v v := by
  rcases lt_or_eq_of_le (dot_self_nonneg v) with h | h
  · exact h
  · exfalso
    apply hv
    funext i
    have h0 : ∀ j ∈ Finset.univ, (0 : ℚ) ≤ v j * v j :=
      fun j _ => mul_self_nonneg (v j)
    have := (Finset.sum_eq_zero_iff_of_nonneg h0).mp h.symm i (Finset.mem_univ i)
    have hv0 : v i = 0 := by
      by_contra hne
      exact hne (by nlinarith [mul_self_nonneg (v i)])
    exact hv0

theorem cosineSim_le_of_sq (u v : Vec D ℚ) (t : ℚ) (ht : 0 ≤ t)
    (hx : 0 ≤ dot u v) (h : (dot u v) ^ 2 ≤ t ^ 2 * (dot u u * dot v v)) :
    cosineSim u v ≤ (t : ℝ) := by
  unfold cosineSim
  refine div_sqrt_le_of_sq _ _ _ ?_ ?_ ?_ ?_
  · have := mul_nonneg (dot_self_nonneg u) (dot_self_nonneg v)
    exact_mod_cast this
  · exact_mod_cast ht
  · exact_mod_cast hx
  · exact_mod_cast h

theorem cosineSim_nonpos (u v : Vec D ℚ) (hx : dot u v ≤ 0) :
    cosineSim u v ≤ 0 := by
  unfold cosineSim
  apply div_nonpos_of_nonpos_of_nonneg
  · exact_mod_cast hx
  · exact Real.sqrt_nonneg _

theorem cosineSim_eq_one_of_sq (u v : Vec D ℚ) (h1 : 0 < dot u v)
    (h2 : (dot u v) ^ 2 = dot u u * dot v v) : cosineSim u v = 1 := by
  unfold cosineSim
  refine div_sqrt_eq_one_of_sq _ _ ?_ ?_
  · exact_mod_cast h1
  · exact_mod_cast congrArg (fun q : ℚ => (q : ℝ)) h2

end Cosine

section Fourier

/-- The primitive `D`-th root of unity used by the Fourier transform. -/
noncomputable def omega (D : ℕ) : ℂ := Complex.exp (2 * Real.pi * Complex.I / D)

theorem omega_isPrimitiveRoot (D : ℕ) [NeZero D] : IsPrimitiveRoot (omega D) D :=
  Complex.isPrimitiveRoot_exp D (NeZero.ne D)

theorem omega_pow_self (D : ℕ) [NeZero D] : omega D ^ D = 1 :=
  (omega_isPrimitiveRoot D).pow_eq_one

theorem omega_pow_mod (D : ℕ) [NeZero D] (x : ℕ) :
    omega D ^ (x % D) = omega D ^ x := by
  conv_rhs => rw [← Nat.div_add_mod x D]
  rw [pow_add, pow_mul, omega_pow_self, one_pow, one_mul]

/-- The additive character `m ↦ ω^m` of `ZMod D` underlying the Fourier
transform. -/
noncomputable def chi {D : ℕ} [NeZero D] (m : ZMod D) : ℂ := omega D ^ m.val

theorem chi_zero {D : ℕ} [NeZero D] : chi (0 : ZMod D) = 1 := by
  simp [chi, ZMod.val_zero]

theorem chi_add {D : ℕ} [NeZero D] (m n : ZMod D) : chi (m + n) = chi m * chi n := by
  unfold chi
  rw [ZMod.val_add, omega_pow_mod, pow_add]

theorem chi_mul_val {D : ℕ} [NeZero D] (t i : ZMod D) : chi (t * i) = chi t ^ i.val := by
  unfold chi
  rw [ZMod.val_mul, omega_pow_mod, ← pow_mul]

theorem chi_pow_card {D : ℕ} [NeZero D] (t : ZMod D) : chi t ^ D = 1 := by
  unfold chi
  rw [← pow_mul, mul_comm, pow_mul, omega_pow_self, one_pow]

theorem chi_ne_one {D : ℕ} [NeZero D] (t : ZMod D) (ht : t ≠ 0) : chi t ≠ 1 :=
  (omega_isPrimitiveRoot D).pow_ne_one_of_pos_of_lt (ZMod.val_pos.mpr ht) (ZMod.val_lt t)

theorem sum_val_reindex {D : ℕ} [NeZero D] (f : ℕ → ℂ) :
    ∑ i : ZMod D, f i.val = ∑ k ∈ Finset.range D, f k := by
  refine Finset.sum_nbij' (fun i => i.val) (fun k => (k : ZMod D)) ?_ ?_ ?_ ?_ ?_
  · intro i _
    exact Finset.mem_range.mpr (ZMod.val_lt i)
  · intro k _
    exact Finset.mem_univ _
  · intro i _
    exact ZMod.natCast_rightInverse i
  · intro k hk
    exact ZMod.val_cast_of_lt (Finset.mem_range.mp hk)
  · intro i _
    rfl

/-- Orthogonality of the characters: the sum of `χ(t·i)` over all `i`
vanishes unless `t = 0`, where it is `D`. -/
theorem sum_chi {D : ℕ} [NeZero D] (t : ZMod D) :
    ∑ i : ZMod D, chi (t * i) = if t = 0 then (D : ℂ) else 0 := by
  by_cases ht : t = 0
  · subst ht
    simp [chi_zero, Finset.card_univ]
  · simp only [ht, if_false]
    have hsum : ∑ i : ZMod D, chi (t * i) = ∑ k ∈ Finset.range D, chi t ^ k := by
      rw [← sum_val_reindex (fun k => chi t ^ k)]
      exact Finset.sum_congr rfl (fun i _ => chi_mul_val t i)
    have hgeom : (∑ k ∈ Finset.range D, chi t ^ k) * (chi t - 1) = 0 := by
      rw [geom_sum_mul, chi_pow_card, sub_self]
    rcases mul_eq_zero.mp hgeom with h | h
    · rw [hsum, h]
    · exact absurd (by linear_combination h) (chi_ne_one t ht)

/-- Modelled from the spec: the discrete Fourier transform
(`CircularConvolution` "performs circular convolution by taking the Fourier
transform of both vectors, performing element-wise ... multiplication in the
Fourier domain, and finally taking the inverse Fourier transform"). -/
noncomputable def dft {D : ℕ} [NeZero D] (a : Vec D ℂ) : Vec D ℂ :=
  fun k => ∑ j : ZMod D, a j * chi (-(j * k))

/-- The inverse discrete Fourier transform. -/
noncomputable def idft {D : ℕ} [NeZero D] (A : Vec D ℂ) : Vec D ℂ :=
  fun j => (D : ℂ)⁻¹ * ∑ k : ZMod D, A k * chi (j * k)

/-- The Fourier-domain computation of binding: transform both operands,
multiply element-wise, inverse-transform.  This is the spec's second
description of the binding operator, to be compared with the direct
convolution formula `bind`. -/
noncomputable def bindFourier {D : ℕ} [NeZero D] (a b : Vec D ℂ) : Vec D ℂ :=
  idft (fun k => dft a k * dft b k)

/-- The discrete convolution theorem: the Fourier-domain computation agrees
with the direct circular-convolution formula. -/
theorem idft_dft_mul {D : ℕ} [NeZero D] (a b : Vec D ℂ) :
    bindFourier a b = bind a b := by
  funext j
  show (D : ℂ)⁻¹ * ∑ k : ZMod D, (dft a k * dft b k) * chi (j * k) = bind a b j
  have step1 : ∀ k : ZMod D, (dft a k * dft b k) * chi (j * k)
      = ∑ m : ZMod D, ∑ n : ZMod D, a m * b n * chi ((j - m - n) * k) := by
    intro k
    unfold dft
    rw [Finset.sum_mul_sum, Finset.sum_mul]
    refine Finset.sum_congr rfl (fun m _ => ?_)
    rw [Finset.sum_mul]
    refine Finset.sum_congr rfl (fun n _ => ?_)
    have hx : chi (-(m * k)) * chi (-(n * k)) * chi (j * k) = chi ((j - m - n) * k) := by
      rw [← chi_add, ← chi_add]
      congr 1
      ring
    calc a m * chi (-(m * k)) * (b n * chi (-(n * k))) * chi (j * k)
        = a m * b n * (chi (-(m * k)) * chi (-(n * k)) * chi (j * k)) := by ring
      _ = a m * b n * chi ((j - m - n) * k) := by rw [hx]
  rw [Finset.sum_congr rfl (fun k _ => step1 k)]
  rw [Finset.sum_comm]
  have step2 : ∀ m : ZMod D,
      (∑ k : ZMod D, ∑ n : ZMod D, a m * b n * chi ((j - m - n) * k))
        = a m * b (j - m) * D := by
    intro m
    rw [Finset.sum_comm]
    have inner : ∀ n : ZMod D, (∑ k : ZMod D, a m * b n * chi ((j - m - n) * k))
        = a m * b n * (if j - m - n = 0 then (D : ℂ) else 0) := by
      intro n
      rw [← Finset.mul_sum, sum_chi]
    rw [Finset.sum_congr rfl (fun n _ => inner n)]
    rw [Finset.sum_eq_single (j - m)]
    · simp
    · intro n _ hn
      have h0 : ¬ (j - m - n = 0) := fun hc => hn (by linear_combination -hc)
      simp [h0]
    · intro h
      exact absurd (Finset.mem_univ _) h
  rw [Finset.sum_congr rfl (fun m _ => step2 m)]
  unfold bind
  rw [Finset.mul_sum]
  refine Finset.sum_congr rfl (fun m _ => ?_)
  have hD : (D : ℂ) ≠ 0 := Nat.cast_ne_zero.mpr (NeZero.ne D)
  field_simp

end Fourier

section DimOne

theorem unbind_bind_dim_one (a b : Vec 1 ℚ) :
    unbind (bind a b) b = dot b b • a := by
  funext k
  have hk : k = 0 := Subsingleton.elim k 0
  subst hk
  simp [unbind, bind, approxInv, dot, Finset.univ_unique, Subsingleton.elim _ (0 : ZMod 1)]
  ring

end DimOne

/-!
## Claim C1: the concrete `D = 32` unbinding scenario

The scenario's vocabulary guarantees for `populate("A; B; C=A*B")` are: `A`
and `B` are generated unit pointers whose pairwise cosine similarity is at
most `τ = 0.1`, and `C` is stored as exactly `bind A B` (the latter two facts
are proved at the vocabulary layer for claims C2 and C10).  The formalized
claim reads: for all such `A`, `B`, the cosine similarity of
`unbind (bind A B) B` to `A` exceeds 0.95.  The vectors below satisfy every
constraint yet the similarity is about 0.73, so the claim fails.
-/

def cA : Vec 32 ℚ := (3/5 : ℚ) • shiftDelta ℚ 0 + (-(4/5) : ℚ) • shiftDelta ℚ 1

def cB : Vec 32 ℚ := (3/5 : ℚ) • shiftDelta ℚ 0 + ((4/5) : ℚ) • shiftDelta ℚ 1

/-- The unbinding result `bind (bind cA cB) (approxInv cB)`, in closed
form. -/
def cU : Vec 32 ℚ :=
  (27/125 : ℚ) • shiftDelta ℚ 0 + (-(64/125) : ℚ) • shiftDelta ℚ 1
    + (-(48/125) : ℚ) • shiftDelta ℚ 2 + (36/125 : ℚ) • shiftDelta ℚ 31

theorem bind_cA_cB :
    bind cA cB = (9/25 : ℚ) • shiftDelta ℚ 0 + (-(16/25) : ℚ) • shiftDelta ℚ 2 := by
  rw [cA, cB]
  simp only [bind_add_left, bind_add_right, bind_smul_left, bind_smul_right,
    bind_shiftDelta]
  rw [show ((0 : ZMod 32) + 0) = 0 by decide, show ((0 : ZMod 32) + 1) = 1 by decide,
    show ((1 : ZMod 32) + 0) = 1 by decide, show ((1 : ZMod 32) + 1) = 2 by decide]
  module

theorem approxInv_cB :
    approxInv cB = (3/5 : ℚ) • shiftDelta ℚ 0 + ((4/5) : ℚ) • shiftDelta ℚ 31 := by
  rw [cB, approxInv_add, approxInv_smul, approxInv_smul, approxInv_shiftDelta,
    approxInv_shiftDelta]
  rw [show (-(0 : ZMod 32)) = 0 by decide, show (-(1 : ZMod 32)) = 31 by decide]

theorem unbind_cA_cB : unbind (bind cA cB) cB = cU := by
  rw [unbind, bind_cA_cB, approxInv_cB, cU]
  simp only [bind_add_left, bind_add_right, bind_smul_left, bind_smul_right,
    bind_shiftDelta]
  rw [show ((0 : ZMod 32) + 0) = 0 by decide, show ((0 : ZMod 32) + 31) = 31 by decide,
    show ((2 : ZMod 32) + 0) = 2 by decide, show ((2 : ZMod 32) + 31) = 1 by decide]
  module

theorem dot_cA_cA : dot cA cA = 1 := by
  rw [cA]
  simp only [dot_add_left, dot_add_right, dot_smul_left, dot_smul_right,
    dot_shiftDelta]
  norm_num [show (0 : ZMod 32) ≠ 1 by decide, show (1 : ZMod 32) ≠ 0 by decide]

theorem dot_cB_cB : dot cB cB = 1 := by
  rw [cB]
  simp only [dot_add_left, dot_add_right, dot_smul_left, dot_smul_right,
    dot_shiftDelta]
  norm_num [show (0 : ZMod 32) ≠ 1 by decide, show (1 : ZMod 32) ≠ 0 by decide]

theorem dot_cA_cB : dot cA cB = -(7/25) := by
  rw [cA, cB]
  simp only [dot_add_left, dot_add_right, dot_smul_left, dot_smul_right,
    dot_shiftDelta]
  norm_num [show (0 : ZMod 32) ≠ 1 by decide, show (1 : ZMod 32) ≠ 0 by decide]

theorem dot_cU_cA : dot cU cA = 337/625 := by
  rw [cU, cA]
  simp only [dot_add_left, dot_add_right, dot_smul_left, dot_smul_right,
    dot_shiftDelta]
  norm_num [show (0 : ZMod 32) ≠ 1 by decide, show (1 : ZMod 32) ≠ 0 by decide,
    show (2 : ZMod 32) ≠ 0 by decide, show (2 : ZMod 32) ≠ 1 by decide,
    show (31 : ZMod 32) ≠ 0 by decide, show (31 : ZMod 32) ≠ 1 by decide]

theorem dot_cU_cU : dot cU cU = 337/625 := by
  rw [cU]
  simp only [dot_add_left, dot_add_right, dot_smul_left, dot_smul_right,
    dot_shiftDelta]
  norm_num [show (0 : ZMod 32) ≠ 1 by decide, show (1 : ZMod 32) ≠ 0 by decide,
    show (0 : ZMod 32) ≠ 2 by decide, show (2 : ZMod 32) ≠ 0 by decide,
    show (1 : ZMod 32) ≠ 2 by decide, show (2 : ZMod 32) ≠ 1 by decide,
    show (0 : ZMod 32) ≠ 31 by decide, show (31 : ZMod 32) ≠ 0 by decide,
    show (1 : ZMod 32) ≠ 31 by decide, show (31 : ZMod 32) ≠ 1 by decide,
    show (2 : ZMod 32) ≠ 31 by decide, show (31 : ZMod 32) ≠ 2 by decide]

/-- C1 counterexample: concrete unit pointers `A`, `B` of dimension 32
satisfying the vocabulary similarity constraint (`cosine(A,B) ≤ τ = 0.1`)
for which `unbind(A*B, B)` has cosine similarity at most 0.95 to `A` — so the
claim "`unbind(C, B)` has cosine similarity to `A` above 0.95", read as a
guarantee of the populated vocabulary, is false. -/
theorem C1_counterexample :
    (dot cA cA = 1 ∧ dot cB cB = 1 ∧ cosineSim cA cB ≤ ((1/10 : ℚ) : ℝ) ∧
      ¬ ((0.95 : ℝ) < cosineSim (unbind (bind cA cB) cB) cA)) ∧
    ¬ (∀ A B : Vec 32 ℚ, dot A A = 1 → dot B B = 1 →
        cosineSim A B ≤ ((1/10 : ℚ) : ℝ) →
        (0.95 : ℝ) < cosineSim (unbind (bind A B) B) A) := by
  have hcos : cosineSim cA cB ≤ ((1/10 : ℚ) : ℝ) := by
    refine le_trans (cosineSim_nonpos cA cB ?_) (by norm_num)
    rw [dot_cA_cB]
    norm_num
  have hub : cosineSim (unbind (bind cA cB) cB) cA ≤ ((19/20 : ℚ) : ℝ) := by
    rw [unbind_cA_cB]
    refine cosineSim_le_of_sq cU cA (19/20) (by norm_num) ?_ ?_
    · rw [dot_cU_cA]
      norm_num
    · rw [dot_cU_cA, dot_cU_cU, dot_cA_cA]
      norm_num
  have hub' : ¬ ((0.95 : ℝ) < cosineSim (unbind (bind cA cB) cB) cA) := by
    refine not_lt.mpr (le_trans hub ?_)
    norm_num
  exact ⟨⟨dot_cA_cA, dot_cB_cB, hcos, hub'⟩,
    fun hall => hub' (hall cA cB dot_cA_cA dot_cB_cB hcos)⟩

/-- C1 (amended): exact recovery holds when `D = 1`: for nonzero `a`, `b` of
dimension 1, `unbind(bind(a,b), b)` has cosine similarity exactly 1 to `a`;
and for unit pointers cosine similarity coincides with the dot product, so
the vocabulary constraint bounds `dot(A,B)` by `τ` (the `> 0.95` figure of
the `D = 32` scenario is an empirical, seed-dependent observation, not a
consequence of the vocabulary constraints). -/
theorem C1_unbind_amended :
    (∀ a b : Vec 1 ℚ, a ≠ 0 → b ≠ 0 →
      cosineSim (unbind (bind a b) b) a = 1) ∧
    (∀ (D : ℕ) (_ : NeZero D) (A B : Vec D ℚ), dot A A = 1 → dot B B = 1 →
      cosineSim A B = ((dot A B : ℚ) : ℝ)) := by
  constructor
  · intro a b ha hb
    rw [unbind_bind_dim_one]
    have hQ : 0 < dot b b := dot_self_pos b hb
    have hA : 0 < dot a a := dot_self_pos a ha
    refine cosineSim_eq_one_of_sq _ _ ?_ ?_
    · rw [dot_smul_left]
      exact mul_pos hQ hA
    · rw [dot_smul_left, dot_smul_left, dot_smul_right]
      ring
  · intro D _ A B hA hB
    unfold cosineSim
    rw [hA, hB]
    norm_num

/-- Witness for the amended C1. -/
theorem C1_unbind_amended_witness :
    ((fun _ => (1 : ℚ)) : Vec 1 ℚ) ≠ 0 ∧
    cosineSim (unbind (bind ((fun _ => (1 : ℚ)) : Vec 1 ℚ) (fun _ => (1 : ℚ)))
      (fun _ => (1 : ℚ))) (fun _ => (1 : ℚ)) = 1 ∧
    cosineSim cA cB = ((dot cA cB : ℚ) : ℝ) :=
  have hne : ((fun _ => (1 : ℚ)) : Vec 1 ℚ) ≠ 0 := fun h => by
    have h0 := congrFun h 0
    norm_num at h0
  ⟨hne, C1_unbind_amended.1 (fun _ => (1 : ℚ)) (fun _ => (1 : ℚ)) hne hne,
   C1_unbind_amended.2 32 inferInstance cA cB dot_cA_cA dot_cB_cB⟩

/-! ## Concrete vectors used as witnesses -/

def wa3 : Vec 3 ℤ := fun k => if k = 0 then 1 else if k = 1 then 2 else 3

def wb3 : Vec 3 ℤ := fun k => if k = 0 then 4 else if k = 1 then 5 else 6

def wc3 : Vec 3 ℤ := fun k => if k = 0 then 7 else if k = 1 then -2 else 1

def wd3 : Vec 3 ℤ := shiftDelta ℤ 1

/-! ## Claim C3 -/

/-- C3: Binding (circular convolution) is associative and commutative under
exact arithmetic: for all vectors `a`, `b`, `c` of equal dimension,
`bind(a, bind(b,c)) = bind(bind(a,b), c)` and `bind(a,b) = bind(b,a)`,
componentwise. -/
theorem C3_bind_assoc_comm (D : ℕ) (R : Type) [CommRing R] [NeZero D]
    (a b c : Vec D R) :
    bind a (bind b c) = bind (bind a b) c ∧ bind a b = bind b a :=
  ⟨(bind_assoc_lemma a b c).symm, bind_comm_lemma a b⟩

/-- Witness for C3 at `D = 3` over `ℤ`. -/
theorem C3_bind_assoc_comm_witness :
    bind wa3 (bind wb3 wc3) = bind (bind wa3 wb3) wc3 ∧
      bind wa3 wb3 = bind wb3 wa3 :=
  C3_bind_assoc_comm 3 ℤ wa3 wb3 wc3

/-! ## Claim C4 -/

/-- C4: The approximate inverse of a vector `b` of dimension `D` reverses all
components except index 0: `b⁻¹[0] = b[0]` and `b⁻¹[k] = b[D-k]` for `k > 0`;
binding with `b⁻¹` exactly recovers `a` when `b` is perfectly invertible under
convolution (i.e. when `b ⊛ b⁻¹` is the convolution identity). -/
theorem C4_approx_inverse (D : ℕ) (R : Type) [CommRing R] [NeZero D]
    (a b : Vec D R) :
    (approxInv b 0 = b 0 ∧
      ∀ k : ℕ, 0 < k → k < D →
        approxInv b ((k : ℕ) : ZMod D) = b (((D - k : ℕ) : ZMod D))) ∧
    (bind b (approxInv b) = shiftDelta R 0 → unbind (bind a b) b = a) := by
  refine ⟨⟨?_, ?_⟩, ?_⟩
  · simp [approxInv]
  · intro k _ hkD
    show b (-((k : ℕ) : ZMod D)) = b (((D - k : ℕ) : ZMod D))
    congr 1
    rw [Nat.cast_sub hkD.le, ZMod.natCast_self, zero_sub]
  · intro hinv
    unfold unbind
    rw [bind_assoc_lemma, hinv, bind_delta]

/-- Witness for C4 at `D = 3` over `ℤ` with `b` the shifted delta `δ₁`,
which is perfectly invertible under convolution. -/
theorem C4_approx_inverse_witness :
    (approxInv wd3 0 = wd3 0 ∧
      approxInv wd3 ((1 : ℕ) : ZMod 3) = wd3 (((3 - 1 : ℕ) : ZMod 3))) ∧
    unbind (bind wa3 wd3) wd3 = wa3 :=
  ⟨⟨(C4_approx_inverse 3 ℤ wa3 wd3).1.1,
    (C4_approx_inverse 3 ℤ wa3 wd3).1.2 1 (by decide) (by decide)⟩,
   (C4_approx_inverse 3 ℤ wa3 wd3).2 (by decide)⟩

/-! ## Claim C5 -/

/-- C5: For all vectors `a, b ∈ R^D`, the direct circular-convolution formula
`c[k] = Σ_i a[i] * b[(k - i) mod D]` equals the Fourier-domain computation
(transform both operands, multiply element-wise, inverse-transform): the two
definitions of binding are equivalent. -/
theorem C5_bind_fourier_equiv (D : ℕ) [NeZero D] (a b : Vec D ℚ) :
    bindFourier (fun i => ((a i : ℚ) : ℂ)) (fun i => ((b i : ℚ) : ℂ))
      = fun k => ((bind a b k : ℚ) : ℂ) := by
  rw [idft_dft_mul]
  funext k
  unfold bind
  push_cast
  rfl

/-- Rational versions of the `D = 3` witness vectors. -/
def qa3 : Vec 3 ℚ := fun k => if k = 0 then 1 else if k = 1 then 2 else 3

def qb3 : Vec 3 ℚ := fun k => if k = 0 then 4 else if k = 1 then 5 else 6

/-- Witness for C5 at `D = 3`. -/
theorem C5_bind_fourier_equiv_witness :
    bindFourier (fun i => ((qa3 i : ℚ) : ℂ)) (fun i => ((qb3 i : ℚ) : ℂ))
      = fun k => ((bind qa3 qb3 k : ℚ) : ℂ) :=
  C5_bind_fourier_equiv 3 qa3 qb3

/-!
## Vocabulary layer

The `Vocabulary` class, its constrained pointer generation, the expression
evaluator behind `populate`/`parse`, and the casting operations are not among
the provided sources (notebooks only); they are modelled from the spec, §§4.1,
4.2, 4.3, 4.5 and 7.  Vectors at this layer are lists of exact rationals; the
random number generator is modelled as an externally supplied stream `draws`
of candidate unit vectors together with a position counter threaded through
the vocabulary.
-/

/-- Modelled from the spec: the error taxonomy of §7 (plus two cases recording
the model's documented choices for `normalized()`: failing on a zero-norm
vector, and on a vector whose Euclidean norm is not an exact rational). -/
inductive SpaError where
  | unknownPointer
  | dimensionMismatch
  | constraintUnsatisfiable
  | noSharedKeys
  | zeroNorm
  | irrationalNorm
  deriving DecidableEq

/-- Dot product of list vectors. -/
def ldot (u v : List ℚ) : ℚ := (List.zipWith (· * ·) u v).sum

/-- Componentwise sum of list vectors. -/
def lAdd (u v : List ℚ) : List ℚ := List.zipWith (· + ·) u v

/-- Componentwise difference of list vectors. -/
def lSub (u v : List ℚ) : List ℚ := List.zipWith (· - ·) u v

/-- Scalar multiple of a list vector. -/
def lScale (c : ℚ) (u : List ℚ) : List ℚ := u.map (fun x => c * x)

/-- Modelled from the spec: the approximate inverse on list vectors reverses
all components except index 0. -/
def lApproxInv (b : List ℚ) : List ℚ :=
  match b with
  | [] => []
  | x :: rest => x :: rest.reverse

/-- Modelled from the spec: exact circular convolution on list vectors,
`c[k] = Σ_i a[i] * b[(k - i) mod D]` with `D` the length of `a`. -/
def lconv (a b : List ℚ) : List ℚ :=
  (List.range a.length).map (fun k =>
    ((List.range a.length).map (fun i =>
      a.getD i 0 * b.getD ((k + a.length - i) % a.length) 0)).sum)

/-- Exact rational square root, when it exists. -/
def ratSqrt (q : ℚ) : Option ℚ :=
  if q < 0 then none
  else
    let sn := Nat.sqrt q.num.toNat
    let sd := Nat.sqrt q.den
    if (sn * sn : ℤ) = q.num ∧ sd * sd = q.den then some ((sn : ℚ) / (sd : ℚ))
    else none

/-- Modelled from the spec: `Normalize` divides by the Euclidean norm; on a
zero-norm vector the model's documented choice is to fail.  The model is
restricted to vectors whose norm is an exact rational (reported as
`irrationalNorm` otherwise); the spec's real-valued normalization always
succeeds on nonzero vectors. -/
def lnormalize (v : List ℚ) : Except SpaError (List ℚ) :=
  if ldot v v = 0 then .error .zeroNorm
  else
    match ratSqrt (ldot v v) with
    | some s => .ok (lScale s⁻¹ v)
    | none => .error .irrationalNorm

/-- The decidable acceptance check "cosine similarity of `u` and `v` is at
most `t`", rendered without square roots: either the dot product is
nonpositive, or its square is at most `t²` times the product of the squared
norms.  For nonzero vectors and `t ≥ 0` this is equivalent to
`lcosineSim u v ≤ t`. -/
def cosLEb (u v : List ℚ) (t : ℚ) : Bool :=
  decide (ldot u v ≤ 0) || decide ((ldot u v) ^ 2 ≤ t ^ 2 * (ldot u u * ldot v v))

/-- Modelled from the spec (§4.1): a candidate is accepted when its cosine
similarity to every existing vector is at most `τ`. -/
def acceptCandidate (τ : ℚ) (existing : List (List ℚ)) (c : List ℚ) : Bool :=
  existing.all (fun e => cosLEb c e τ)

/-- Modelled from the spec (§4.1): `generate_constrained` repeatedly draws
candidates and accepts the first one satisfying the similarity constraint,
failing with `ConstraintUnsatisfiable` after `max_tries` draws.  `draws` is
the stream of (already unit-normalized) random candidates and the first `ℕ`
argument the current position in it. -/
def generateConstrained (draws : ℕ → List ℚ) (τ : ℚ) (existing : List (List ℚ)) :
    ℕ → ℕ → Except SpaError (List ℚ × ℕ)
  | _, 0 => .error .constraintUnsatisfiable
  | pos, tries + 1 =>
    if acceptCandidate τ existing (draws pos) then .ok (draws pos, pos + 1)
    else generateConstrained draws τ existing (pos + 1) tries

/-- One named vector of a vocabulary, remembering whether it was generated
(subject to the similarity constraint) or explicitly inserted. -/
structure VocabEntry where
  name : String
  vec : List ℚ
  generated : Bool
  deriving DecidableEq

/-- Modelled from the spec (§3, §4.2): a vocabulary has a fixed
dimensionality, a strictness flag, a maximum-similarity threshold `τ`
(default 0.1), RNG state (the position in the draw stream), a bounded retry
count, and an ordered name → vector mapping. -/
structure Vocabulary where
  dim : ℕ
  strict : Bool
  maxSimilarity : ℚ
  maxTries : ℕ
  entries : List VocabEntry
  rngPos : ℕ
  deriving DecidableEq

/-- A fresh vocabulary. -/
def emptyVocab (D : ℕ) (strict : Bool) (τ : ℚ) (tries : ℕ) : Vocabulary :=
  ⟨D, strict, τ, tries, [], 0⟩

def Vocabulary.lookup (vc : Vocabulary) (n : String) : Option (List ℚ) :=
  (vc.entries.find? (fun e => e.name = n)).map (fun e => e.vec)

def Vocabulary.keys (vc : Vocabulary) : List String := vc.entries.map (fun e => e.name)

def Vocabulary.vectors (vc : Vocabulary) : List (List ℚ) :=
  vc.entries.map (fun e => e.vec)

/-- Modelled from the spec (§4.2): `add(name, vector)` inserts an explicit
vector and does not check the similarity constraint. -/
def Vocabulary.add (vc : Vocabulary) (n : String) (v : List ℚ) : Vocabulary :=
  { vc with entries := vc.entries ++ [⟨n, v, false⟩] }

/-- Modelled from the spec (§4.3): the expression tree of the population /
parsing mini-language.  (`.unitary()` is omitted from the model: the spec
defines it through floating-point Fourier-magnitude normalization.) -/
inductive PExpr where
  | sym (n : String)
  | bindE (x y : PExpr)
  | addE (x y : PExpr)
  | subE (x y : PExpr)
  | scaleE (c : ℚ) (x : PExpr)
  | invE (x : PExpr)
  | normalizedE (x : PExpr)

/-- Modelled from the spec (§4.3, §4.2): pure recursive evaluation of an
expression.  A `Symbol` resolves via the vocabulary: a hit returns the stored
vector unchanged; a miss fails with `UnknownPointerError` in strict mode and
generates-and-inserts under the similarity constraint in non-strict mode
(the one sanctioned mutation path), so the possibly-extended vocabulary is
returned alongside the value. -/
def evalExpr (draws : ℕ → List ℚ) :
    PExpr → Vocabulary → Except SpaError (List ℚ × Vocabulary)
  | .sym n, vc =>
    match vc.lookup n with
    | some v => .ok (v, vc)
    | none =>
      if vc.strict then .error .unknownPointer
      else
        match generateConstrained draws vc.maxSimilarity vc.vectors vc.rngPos
            vc.maxTries with
        | .error err => .error err
        | .ok (c, pos') =>
          .ok (c, { vc with entries := vc.entries ++ [⟨n, c, true⟩], rngPos := pos' })
  | .bindE x y, vc =>
    match evalExpr draws x vc with
    | .error err => .error err
    | .ok (v1, vc1) =>
      match evalExpr draws y vc1 with
      | .error err => .error err
      | .ok (v2, vc2) => .ok (lconv v1 v2, vc2)
  | .addE x y, vc =>
    match evalExpr draws x vc with
    | .error err => .error err
    | .ok (v1, vc1) =>
      match evalExpr draws y vc1 with
      | .error err => .error err
      | .ok (v2, vc2) => .ok (lAdd v1 v2, vc2)
  | .subE x y, vc =>
    match evalExpr draws x vc with
    | .error err => .error err
    | .ok (v1, vc1) =>
      match evalExpr draws y vc1 with
      | .error err => .error err
      | .ok (v2, vc2) => .ok (lSub v1 v2, vc2)
  | .scaleE c x, vc =>
    match evalExpr draws x vc with
    | .error err => .error err
    | .ok (v, vc1) => .ok (lScale c v, vc1)
  | .invE x, vc =>
    match evalExpr draws x vc with
    | .error err => .error err
    | .ok (v, vc1) => .ok (lApproxInv v, vc1)
  | .normalizedE x, vc =>
    match evalExpr draws x vc with
    | .error err => .error err
    | .ok (v, vc1) =>
      match lnormalize v with
      | .error err => .error err
      | .ok w => .ok (w, vc1)

/-- One entry of a `populate` specification: either a bare name (generate a
new constrained pointer) or `name = expression`. -/
inductive PopEntry where
  | gen (n : String)
  | defE (n : String) (e : PExpr)

/-- Modelled from the spec (§4.2): processing of a single `populate` entry.
A bare name generates a new pointer under the similarity constraint; a
`name = expression` entry evaluates the expression over the already-known
names and inserts the result exactly as evaluated. -/
def applyPopEntry (draws : ℕ → List ℚ) :
    PopEntry → Vocabulary → Except SpaError Vocabulary
  | .gen n, vc =>
    match generateConstrained draws vc.maxSimilarity vc.vectors vc.rngPos
        vc.maxTries with
    | .error err => .error err
    | .ok (c, pos') =>
      .ok { vc with entries := vc.entries ++ [⟨n, c, true⟩], rngPos := pos' }
  | .defE n e, vc =>
    match evalExpr draws e vc with
    | .error err => .error err
    | .ok (v, vc') => .ok { vc' with entries := vc'.entries ++ [⟨n, v, false⟩] }

/-- Modelled from the spec (§4.2): `populate` processes its entries left to
right, aborting on the first failure. -/
def populate (draws : ℕ → List ℚ) :
    List PopEntry → Vocabulary → Except SpaError Vocabulary
  | [], vc => .ok vc
  | e :: es, vc =>
    match applyPopEntry draws e vc with
    | .error err => .error err
    | .ok vc' => populate draws es vc'

/-- Modelled from the spec (§4.2): `parse` evaluates a standalone expression
against the current contents, with the same name-resolution rules as
`populate`. -/
def Vocabulary.parse (vc : Vocabulary) (draws : ℕ → List ℚ) (e : PExpr) :
    Except SpaError (List ℚ × Vocabulary) :=
  evalExpr draws e vc

section ListLemmas

theorem ldot_cons (x y : ℚ) (xs ys : List ℚ) :
    ldot (x :: xs) (y :: ys) = x * y + ldot xs ys := by
  simp [ldot]

theorem ldot_comm (u v : List ℚ) : ldot u v = ldot v u := by
  induction u generalizing v with
  | nil => simp [ldot]
  | cons x xs ih =>
    cases v with
    | nil => simp [ldot]
    | cons y ys => rw [ldot_cons, ldot_cons, ih, mul_comm]

theorem ldot_self_nonneg (v : List ℚ) : 0 ≤ ldot v v := by
  induction v with
  | nil => simp [ldot]
  | cons x xs ih =>
    rw [ldot_cons]
    nlinarith [mul_self_nonneg x]

theorem ldot_scale_left (c : ℚ) (u v : List ℚ) :
    ldot (lScale c u) v = c * ldot u v := by
  induction u generalizing v with
  | nil => simp [ldot, lScale]
  | cons x xs ih =>
    cases v with
    | nil => simp [ldot, lScale]
    | cons y ys =>
      show ldot (c * x :: lScale c xs) (y :: ys) = _
      rw [ldot_cons, ldot_cons, ih]
      ring

theorem ldot_scale_right (c : ℚ) (u v : List ℚ) :
    ldot u (lScale c v) = c * ldot u v := by
  rw [ldot_comm, ldot_scale_left, ldot_comm]

theorem ratSqrt_spec (q s : ℚ) (h : ratSqrt q = some s) : s * s = q ∧ 0 ≤ s := by
  unfold ratSqrt at h
  by_cases hq : q < 0
  · simp [hq] at h
  · rw [if_neg hq] at h
    by_cases hg : ((Nat.sqrt q.num.toNat * Nat.sqrt q.num.toNat : ℤ) = q.num ∧
        Nat.sqrt q.den * Nat.sqrt q.den = q.den)
    · rw [if_pos hg] at h
      simp only [Option.some.injEq] at h
      subst h
      obtain ⟨hn, hd⟩ := hg
      constructor
      · have h1 : ((Nat.sqrt q.num.toNat : ℚ) * (Nat.sqrt q.num.toNat : ℚ))
            = ((q.num : ℤ) : ℚ) := by
          exact_mod_cast congrArg (fun z : ℤ => (z : ℚ)) hn
        have h2 : ((Nat.sqrt q.den : ℚ) * (Nat.sqrt q.den : ℚ)) = (q.den : ℚ) := by
          exact_mod_cast congrArg (fun z : ℕ => (z : ℚ)) hd
        calc (Nat.sqrt q.num.toNat : ℚ) / (Nat.sqrt q.den : ℚ) *
              ((Nat.sqrt q.num.toNat : ℚ) / (Nat.sqrt q.den : ℚ))
            = ((Nat.sqrt q.num.toNat : ℚ) * (Nat.sqrt q.num.toNat : ℚ)) /
              ((Nat.sqrt q.den : ℚ) * (Nat.sqrt q.den : ℚ)) := by rw [div_mul_div_comm]
          _ = ((q.num : ℤ) : ℚ) / ((q.den : ℕ) : ℚ) := by rw [h1, h2]
          _ = q := Rat.num_div_den q
      · positivity
    · rw [if_neg hg] at h
      simp at h

/-- A successfully normalized vector has unit squared norm. -/
theorem lnormalize_unit (v w : List ℚ) (h : lnormalize v = .ok w) : ldot w w = 1 := by
  unfold lnormalize at h
  by_cases h0 : ldot v v = 0
  · simp [h0] at h
  · rw [if_neg h0] at h
    cases hs : ratSqrt (ldot v v) with
    | none =>
      rw [hs] at h
      exact absurd h (by simp)
    | some s =>
      rw [hs] at h
      simp only [Except.ok.injEq] at h
      subst h
      obtain ⟨hss, _⟩ := ratSqrt_spec _ _ hs
      rw [ldot_scale_left, ldot_scale_right, ← mul_assoc, ← mul_inv, hss]
      exact inv_mul_cancel₀ h0

theorem cosLEb_symm (u v : List ℚ) (t : ℚ) : cosLEb u v t = cosLEb v u t := by
  unfold cosLEb
  rw [ldot_comm u v]
  congr 2
  rw [mul_comm (ldot u u)]

/-- Cosine similarity of two rational list vectors, as a real number. -/
noncomputable def lcosineSim (u v : List ℚ) : ℝ :=
  ((ldot u v : ℚ) : ℝ) / Real.sqrt (((ldot u u : ℚ) : ℝ) * ((ldot v v : ℚ) : ℝ))

/-- The decidable acceptance check implies the real cosine-similarity
bound. -/
theorem lcosineSim_le_of_cosLEb (u v : List ℚ) (t : ℚ) (ht : 0 ≤ t)
    (h : cosLEb u v t = true) : lcosineSim u v ≤ (t : ℝ) := by
  unfold cosLEb at h
  rcases Bool.or_eq_true _ _ |>.mp h with h1 | h1
  · have hd : ldot u v ≤ 0 := of_decide_eq_true h1
    refine le_trans ?_ (by exact_mod_cast ht : (0 : ℝ) ≤ t)
    unfold lcosineSim
    apply div_nonpos_of_nonpos_of_nonneg
    · exact_mod_cast hd
    · exact Real.sqrt_nonneg _
  · have hsq : (ldot u v) ^ 2 ≤ t ^ 2 * (ldot u u * ldot v v) := of_decide_eq_true h1
    by_cases hd : ldot u v ≤ 0
    · refine le_trans ?_ (by exact_mod_cast ht : (0 : ℝ) ≤ t)
      unfold lcosineSim
      apply div_nonpos_of_nonpos_of_nonneg
      · exact_mod_cast hd
      · exact Real.sqrt_nonneg _
    · push_neg at hd
      unfold lcosineSim
      refine div_sqrt_le_of_sq _ _ _ ?_ (by exact_mod_cast ht) (by exact_mod_cast hd.le) ?_
      · have := mul_nonneg (ldot_self_nonneg u) (ldot_self_nonneg v)
        exact_mod_cast this
      · exact_mod_cast hsq

end ListLemmas

section SimilarityInvariant

/-- The similarity invariant: every pair of distinct generated entries passes
the (decidable) maximum-similarity check. -/
def GenPairwise (τ : ℚ) (l : List VocabEntry) : Prop :=
  l.Pairwise (fun p q =>
    p.generated = true → q.generated = true → cosLEb p.vec q.vec τ = true)

theorem generateConstrained_ok (draws : ℕ → List ℚ) (τ : ℚ)
    (existing : List (List ℚ)) (pos tries : ℕ) (c : List ℚ) (pos' : ℕ)
    (h : generateConstrained draws τ existing pos tries = .ok (c, pos')) :
    acceptCandidate τ existing c = true ∧ ∃ p, c = draws p := by
  induction tries generalizing pos with
  | zero => simp [generateConstrained] at h
  | succ n ih =>
    rw [generateConstrained] at h
    by_cases hacc : acceptCandidate τ existing (draws pos) = true
    · rw [if_pos hacc] at h
      simp only [Except.ok.injEq, Prod.mk.injEq] at h
      exact ⟨h.1 ▸ hacc, pos, h.1.symm⟩
    · rw [if_neg hacc] at h
      exact ih (pos + 1) h

theorem generateConstrained_error (draws : ℕ → List ℚ) (τ : ℚ)
    (existing : List (List ℚ)) (err : SpaError)
    (pos tries : ℕ)
    (h : generateConstrained draws τ existing pos tries = .error err) :
    err = .constraintUnsatisfiable := by
  induction tries generalizing pos with
  | zero =>
    simp only [generateConstrained, Except.error.injEq] at h
    exact h.symm
  | succ n ih =>
    rw [generateConstrained] at h
    by_cases hacc : acceptCandidate τ existing (draws pos) = true
    · rw [if_pos hacc] at h
      exact absurd h (by simp)
    · rw [if_neg hacc] at h
      exact ih (pos + 1) h

theorem generateConstrained_all_rejected (draws : ℕ → List ℚ) (τ : ℚ)
    (existing : List (List ℚ))
    (hrej : ∀ p, acceptCandidate τ existing (draws p) = false) (pos tries : ℕ) :
    generateConstrained draws τ existing pos tries = .error .constraintUnsatisfiable := by
  induction tries generalizing pos with
  | zero => rfl
  | succ n ih =>
    rw [generateConstrained]
    rw [if_neg (by simp [hrej pos])]
    exact ih (pos + 1)

theorem acceptCandidate_mem (τ : ℚ) (vc : Vocabulary) (c : List ℚ)
    (h : acceptCandidate τ vc.vectors c = true) :
    ∀ e ∈ vc.entries, cosLEb c e.vec τ = true := by
  intro e he
  have := List.all_eq_true.mp h e.vec
    (by exact List.mem_map.mpr ⟨e, he, rfl⟩)
  exact this

theorem genPairwise_append_nongen (τ : ℚ) (l : List VocabEntry) (n : String)
    (v : List ℚ) (h : GenPairwise τ l) :
    GenPairwise τ (l ++ [⟨n, v, false⟩]) := by
  rw [GenPairwise, List.pairwise_append]
  refine ⟨h, List.pairwise_singleton _ _, ?_⟩
  intro x _ y hy
  simp only [List.mem_singleton] at hy
  subst hy
  intro _ h2
  exact absurd h2 (by simp)

theorem genPairwise_append_gen (τ : ℚ) (l : List VocabEntry) (n : String)
    (c : List ℚ) (hp : GenPairwise τ l)
    (hacc : ∀ e ∈ l, cosLEb c e.vec τ = true) :
    GenPairwise τ (l ++ [⟨n, c, true⟩]) := by
  rw [GenPairwise, List.pairwise_append]
  refine ⟨hp, List.pairwise_singleton _ _, ?_⟩
  intro x hx y hy
  simp only [List.mem_singleton] at hy
  subst hy
  intro _ _
  rw [cosLEb_symm]
  exact hacc x hx

/-- Evaluation preserves the threshold, strictness, dimension and draw-bound
fields and the similarity invariant (the only mutation path, non-strict
auto-generation, inserts only accepted candidates). -/
theorem evalExpr_preserves (draws : ℕ → List ℚ) (e : PExpr) (vc : Vocabulary)
    (v : List ℚ) (vc' : Vocabulary)
    (h : evalExpr draws e vc = .ok (v, vc')) :
    vc'.maxSimilarity = vc.maxSimilarity ∧
      (GenPairwise vc.maxSimilarity vc.entries →
        GenPairwise vc'.maxSimilarity vc'.entries) := by
  induction e generalizing vc v vc' with
  | sym n =>
    rw [evalExpr] at h
    cases hl : vc.lookup n with
    | some w =>
      rw [hl] at h
      simp only [Except.ok.injEq, Prod.mk.injEq] at h
      rw [← h.2]
      exact ⟨rfl, id⟩
    | none =>
      rw [hl] at h
      by_cases hs : vc.strict
      · rw [if_pos hs] at h
        exact absurd h (by simp)
      · rw [if_neg hs] at h
        cases hg : generateConstrained draws vc.maxSimilarity vc.vectors vc.rngPos
            vc.maxTries with
        | error err =>
          rw [hg] at h
          exact absurd h (by simp)
        | ok p =>
          obtain ⟨c, pos'⟩ := p
          rw [hg] at h
          simp only [Except.ok.injEq, Prod.mk.injEq] at h
          rw [← h.2]
          refine ⟨rfl, fun hinv => ?_⟩
          exact genPairwise_append_gen _ _ _ _ hinv
            (acceptCandidate_mem _ vc c (generateConstrained_ok _ _ _ _ _ _ _ hg).1)
  | bindE x y ihx ihy =>
    rw [evalExpr] at h
    cases hx : evalExpr draws x vc with
    | error err => simp [hx] at h
    | ok p =>
      obtain ⟨v1, vc1⟩ := p
      cases hy : evalExpr draws y vc1 with
      | error err => simp [hx, hy] at h
      | ok q =>
        obtain ⟨v2, vc2⟩ := q
        simp only [hx, hy, Except.ok.injEq, Prod.mk.injEq] at h
        obtain ⟨ih1, ih2⟩ := ihx vc v1 vc1 hx
        obtain ⟨ih3, ih4⟩ := ihy vc1 v2 vc2 hy
        rw [← h.2]
        exact ⟨ih3.trans ih1, fun hi => ih4 (ih1 ▸ ih2 hi)⟩
  | addE x y ihx ihy =>
    rw [evalExpr] at h
    cases hx : evalExpr draws x vc with
    | error err => simp [hx] at h
    | ok p =>
      obtain ⟨v1, vc1⟩ := p
      cases hy : evalExpr draws y vc1 with
      | error err => simp [hx, hy] at h
      | ok q =>
        obtain ⟨v2, vc2⟩ := q
        simp only [hx, hy, Except.ok.injEq, Prod.mk.injEq] at h
        obtain ⟨ih1, ih2⟩ := ihx vc v1 vc1 hx
        obtain ⟨ih3, ih4⟩ := ihy vc1 v2 vc2 hy
        rw [← h.2]
        exact ⟨ih3.trans ih1, fun hi => ih4 (ih1 ▸ ih2 hi)⟩
  | subE x y ihx ihy =>
    rw [evalExpr] at h
    cases hx : evalExpr draws x vc with
    | error err => simp [hx] at h
    | ok p =>
      obtain ⟨v1, vc1⟩ := p
      cases hy : evalExpr draws y vc1 with
      | error err => simp [hx, hy] at h
      | ok q =>
        obtain ⟨v2, vc2⟩ := q
        simp only [hx, hy, Except.ok.injEq, Prod.mk.injEq] at h
        obtain ⟨ih1, ih2⟩ := ihx vc v1 vc1 hx
        obtain ⟨ih3, ih4⟩ := ihy vc1 v2 vc2 hy
        rw [← h.2]
        exact ⟨ih3.trans ih1, fun hi => ih4 (ih1 ▸ ih2 hi)⟩
  | scaleE cc x ihx =>
    rw [evalExpr] at h
    cases hx : evalExpr draws x vc with
    | error err => simp [hx] at h
    | ok p =>
      obtain ⟨v1, vc1⟩ := p
      simp only [hx, Except.ok.injEq, Prod.mk.injEq] at h
      obtain ⟨ih1, ih2⟩ := ihx vc v1 vc1 hx
      rw [← h.2]
      exact ⟨ih1, ih2⟩
  | invE x ihx =>
    rw [evalExpr] at h
    cases hx : evalExpr draws x vc with
    | error err => simp [hx] at h
    | ok p =>
      obtain ⟨v1, vc1⟩ := p
      simp only [hx, Except.ok.injEq, Prod.mk.injEq] at h
      obtain ⟨ih1, ih2⟩ := ihx vc v1 vc1 hx
      rw [← h.2]
      exact ⟨ih1, ih2⟩
  | normalizedE x ihx =>
    rw [evalExpr] at h
    cases hx : evalExpr draws x vc with
    | error err => simp [hx] at h
    | ok p =>
      obtain ⟨v1, vc1⟩ := p
      cases hn : lnormalize v1 with
      | error err => simp [hx, hn] at h
      | ok w =>
        simp only [hx, hn, Except.ok.injEq, Prod.mk.injEq] at h
        obtain ⟨ih1, ih2⟩ := ihx vc v1 vc1 hx
        rw [← h.2]
        exact ⟨ih1, ih2⟩

theorem applyPopEntry_preserves (draws : ℕ → List ℚ) (pe : PopEntry)
    (vc vc' : Vocabulary) (h : applyPopEntry draws pe vc = .ok vc') :
    vc'.maxSimilarity = vc.maxSimilarity ∧
      (GenPairwise vc.maxSimilarity vc.entries →
        GenPairwise vc'.maxSimilarity vc'.entries) := by
  cases pe with
  | gen n =>
    rw [applyPopEntry] at h
    cases hg : generateConstrained draws vc.maxSimilarity vc.vectors vc.rngPos
        vc.maxTries with
    | error err => simp [hg] at h
    | ok p =>
      obtain ⟨c, pos'⟩ := p
      simp only [hg, Except.ok.injEq] at h
      rw [← h]
      refine ⟨rfl, fun hi => ?_⟩
      exact genPairwise_append_gen _ _ _ _ hi
        (acceptCandidate_mem _ vc c (generateConstrained_ok _ _ _ _ _ _ _ hg).1)
  | defE n e =>
    rw [applyPopEntry] at h
    cases he : evalExpr draws e vc with
    | error err => simp [he] at h
    | ok p =>
      obtain ⟨v, vc1⟩ := p
      simp only [he, Except.ok.injEq] at h
      rw [← h]
      obtain ⟨h1, h2⟩ := evalExpr_preserves draws e vc v vc1 he
      exact ⟨h1, fun hi => genPairwise_append_nongen _ _ _ _ (h2 hi)⟩

theorem populate_preserves (draws : ℕ → List ℚ) (es : List PopEntry)
    (vc vc' : Vocabulary) (h : populate draws es vc = .ok vc') :
    vc'.maxSimilarity = vc.maxSimilarity ∧
      (GenPairwise vc.maxSimilarity vc.entries →
        GenPairwise vc'.maxSimilarity vc'.entries) := by
  induction es generalizing vc with
  | nil =>
    simp only [populate, Except.ok.injEq] at h
    rw [← h]
    exact ⟨rfl, id⟩
  | cons pe es ih =>
    rw [populate] at h
    cases hpe : applyPopEntry draws pe vc with
    | error err => simp [hpe] at h
    | ok vc1 =>
      rw [hpe] at h
      obtain ⟨h1, h2⟩ := applyPopEntry_preserves draws pe vc vc1 hpe
      obtain ⟨h3, h4⟩ := ih vc1 h
      exact ⟨h3.trans h1, fun hi => h4 (h1 ▸ h2 hi)⟩

theorem ldot_singleton (a b : ℚ) : ldot [a] [b] = a * b := by
  simp [ldot]

theorem unit_singleton (v : List ℚ) (hl : v.length = 1) (hd : ldot v v = 1) :
    v = [1] ∨ v = [-1] := by
  cases v with
  | nil => simp at hl
  | cons x xs =>
    cases xs with
    | nil =>
      have hx : x * x = 1 := by simpa [ldot] using hd
      rcases mul_self_eq_one_iff.mp hx with h | h <;> simp [h]
    | cons y ys => simp at hl

/-- Two unit one-dimensional pointers with dot product `1` (same sign) fail
the `τ = 1/10` similarity check. -/
theorem cosLEb_same_sign_false (a b : ℚ) (hab : a * b = 1) :
    cosLEb [a] [b] (1/10) = false := by
  unfold cosLEb
  have h1 : ldot [a] [b] = 1 := by rw [ldot_singleton, hab]
  have h2 : ldot [a] [a] * ldot [b] [b] = 1 := by
    rw [ldot_singleton, ldot_singleton]
    nlinarith [hab]
  rw [h1, h2]
  norm_num

theorem unit_singleton_sq (v : List ℚ) (hl : v.length = 1) (hd : ldot v v = 1) :
    ∃ x, v = [x] ∧ x * x = 1 := by
  cases v with
  | nil => simp at hl
  | cons x xs =>
    cases xs with
    | nil => exact ⟨x, rfl, by simpa [ldot] using hd⟩
    | cons y ys => simp at hl

theorem applyPopEntry_gen_error (draws : ℕ → List ℚ) (n : String)
    (vc : Vocabulary) (err : SpaError)
    (h : applyPopEntry draws (.gen n) vc = .error err) :
    err = .constraintUnsatisfiable := by
  rw [applyPopEntry] at h
  cases hg : generateConstrained draws vc.maxSimilarity vc.vectors vc.rngPos
      vc.maxTries with
  | error e =>
    rw [hg] at h
    simp only [Except.error.injEq] at h
    rw [← h]
    exact generateConstrained_error _ _ _ _ _ _ hg
  | ok p =>
    obtain ⟨c, pos'⟩ := p
    simp [hg] at h

theorem applyPopEntry_gen_ok (draws : ℕ → List ℚ) (n : String)
    (vc vc' : Vocabulary) (h : applyPopEntry draws (.gen n) vc = .ok vc') :
    ∃ c pos',
      generateConstrained draws vc.maxSimilarity vc.vectors vc.rngPos vc.maxTries
          = .ok (c, pos') ∧
        vc' = { vc with entries := vc.entries ++ [⟨n, c, true⟩], rngPos := pos' } := by
  rw [applyPopEntry] at h
  cases hg : generateConstrained draws vc.maxSimilarity vc.vectors vc.rngPos
      vc.maxTries with
  | error e => simp [hg] at h
  | ok p =>
    obtain ⟨c, pos'⟩ := p
    simp only [hg, Except.ok.injEq] at h
    exact ⟨c, pos', rfl, h.symm⟩

theorem populate_gen_cons (draws : ℕ → List ℚ) (n : String) (es : List PopEntry)
    (vc : Vocabulary) :
    populate draws (.gen n :: es) vc = .error .constraintUnsatisfiable ∨
    ∃ vc', applyPopEntry draws (.gen n) vc = .ok vc' ∧
      populate draws (.gen n :: es) vc = populate draws es vc' := by
  rw [populate]
  cases h : applyPopEntry draws (.gen n) vc with
  | error err =>
    left
    rw [applyPopEntry_gen_error draws n vc err h]
  | ok vc' =>
    right
    exact ⟨vc', rfl, rfl⟩

/-- At dimension 1 with `τ = 1/10`, asking for three generated pointers can
never succeed: whatever the draw stream of unit vectors and whatever the
retry budget, `populate` raises `ConstraintUnsatisfiable`. -/
theorem populate_three_dim1_fails (draws : ℕ → List ℚ) (strict : Bool)
    (tries : ℕ)
    (hunit : ∀ p, (draws p).length = 1 ∧ ldot (draws p) (draws p) = 1) :
    populate draws [.gen "A", .gen "B", .gen "C"]
        (emptyVocab 1 strict (1/10) tries) = .error .constraintUnsatisfiable := by
  rcases populate_gen_cons draws "A" [.gen "B", .gen "C"]
      (emptyVocab 1 strict (1/10) tries) with hA | ⟨vc1, hA, hApop⟩
  · exact hA
  · rw [hApop]
    obtain ⟨c1, pos1, hg1, hvc1⟩ := applyPopEntry_gen_ok draws "A" _ vc1 hA
    obtain ⟨hacc1, p1, hc1⟩ := generateConstrained_ok _ _ _ _ _ _ _ hg1
    obtain ⟨x1, hx1, hx1sq⟩ :=
      unit_singleton_sq c1 (hc1 ▸ (hunit p1).1) (hc1 ▸ (hunit p1).2)
    have hvc1sim : vc1.maxSimilarity = 1/10 := by rw [hvc1]; rfl
    have hvc1vecs : vc1.vectors = [c1] := by
      rw [hvc1]
      simp [Vocabulary.vectors, emptyVocab]
    rcases populate_gen_cons draws "B" [.gen "C"] vc1 with hB | ⟨vc2, hB, hBpop⟩
    · exact hB
    · rw [hBpop]
      obtain ⟨c2, pos2, hg2, hvc2⟩ := applyPopEntry_gen_ok draws "B" _ vc2 hB
      obtain ⟨hacc2, p2, hc2⟩ := generateConstrained_ok _ _ _ _ _ _ _ hg2
      obtain ⟨x2, hx2, hx2sq⟩ :=
        unit_singleton_sq c2 (hc2 ▸ (hunit p2).1) (hc2 ▸ (hunit p2).2)
      rw [hvc1sim, hvc1vecs] at hacc2
      have hcos21 : cosLEb c2 c1 (1/10) = true := by
        simpa [acceptCandidate] using hacc2
      have hx21 : x2 * x1 = -1 := by
        have hsq : (x2 * x1) * (x2 * x1) = 1 := by
          linear_combination (x1 * x1) * hx2sq + hx1sq
        rcases mul_self_eq_one_iff.mp hsq with he | he
        · exfalso
          have hff := cosLEb_same_sign_false x2 x1 he
          rw [hx1, hx2] at hcos21
          rw [hcos21] at hff
          exact Bool.noConfusion hff
        · exact he
      have hvc2sim : vc2.maxSimilarity = 1/10 := by rw [hvc2, hvc1]; rfl
      have hvc2vecs : vc2.vectors = [c1, c2] := by
        rw [hvc2, hvc1]
        simp [Vocabulary.vectors, emptyVocab]
      have hrej : ∀ p, acceptCandidate (1/10) vc2.vectors (draws p) = false := by
        intro p
        obtain ⟨x, hx, hxsq⟩ := unit_singleton_sq (draws p) (hunit p).1 (hunit p).2
        rw [hvc2vecs, hx]
        have hacc_eq : acceptCandidate (1/10) [c1, c2] [x]
            = (cosLEb [x] c1 (1/10) && (cosLEb [x] c2 (1/10) && true)) := rfl
        rw [hacc_eq, hx1, hx2]
        have hxx1 : (x * x1) * (x * x1) = 1 := by
          linear_combination (x1 * x1) * hxsq + hx1sq
        rcases mul_self_eq_one_iff.mp hxx1 with he | he
        · rw [cosLEb_same_sign_false x x1 he, Bool.false_and]
        · have hxx2 : x * x2 = 1 := by
            linear_combination (-(x * x2)) * hx1sq + (x2 * x1) * he - hx21
          rw [cosLEb_same_sign_false x x2 hxx2, Bool.false_and, Bool.and_false]
      rw [populate]
      have hC : applyPopEntry draws (.gen "C") vc2 = .error .constraintUnsatisfiable := by
        rw [applyPopEntry, hvc2sim]
        rw [generateConstrained_all_rejected draws (1/10) vc2.vectors hrej]
      rw [hC]

end SimilarityInvariant

/-! ## Claim C2 -/

/-- C2: For every populated vocabulary, every distinct pair of generated (not
explicitly `add`-ed) pointers has cosine similarity at most `τ`; requesting
more pointers than the dimensionality supports at fixed `τ` eventually raises
`ConstraintUnsatisfiable` (at `D = 1`, `τ = 1/10`, a third generated pointer
always fails, whatever the draw stream and retry budget); and `add(name,
vector)` inserts its vector unconditionally, without checking the similarity
constraint. -/
theorem C2_similarity_invariant :
    (∀ (draws : ℕ → List ℚ) (es : List PopEntry) (D : ℕ) (strict : Bool)
        (τ : ℚ) (tries : ℕ) (vc' : Vocabulary), 0 ≤ τ →
      populate draws es (emptyVocab D strict τ tries) = .ok vc' →
      vc'.entries.Pairwise (fun p q => p.generated = true → q.generated = true →
        lcosineSim p.vec q.vec ≤ (τ : ℝ))) ∧
    (∀ (draws : ℕ → List ℚ) (strict : Bool) (tries : ℕ),
      (∀ p, (draws p).length = 1 ∧ ldot (draws p) (draws p) = 1) →
      populate draws [.gen "A", .gen "B", .gen "C"]
          (emptyVocab 1 strict (1/10) tries) = .error .constraintUnsatisfiable) ∧
    (∀ (vc : Vocabulary) (n : String) (v : List ℚ),
      (vc.add n v).entries = vc.entries ++ [⟨n, v, false⟩]) := by
  refine ⟨?_, populate_three_dim1_fails, fun vc n v => rfl⟩
  intro draws es D strict τ tries vc' hτ hpop
  obtain ⟨hsim, hpair⟩ := populate_preserves draws es _ vc' hpop
  have hres := hpair List.Pairwise.nil
  rw [hsim] at hres
  exact hres.imp (fun h12 hg1 hg2 =>
    lcosineSim_le_of_cosLEb _ _ τ hτ (h12 hg1 hg2))

/-- The witness draw stream: `[1, 0]` first, then `[0, 1]`. -/
def wDraws : ℕ → List ℚ := fun n => if n = 0 then [1, 0] else [0, 1]

/-- The vocabulary produced by the witness `populate` run. -/
def wVocabResult : Vocabulary :=
  ⟨2, true, 1/10, 1, [⟨"A", [1, 0], true⟩, ⟨"B", [0, 1], true⟩], 2⟩

theorem wDraws_populate :
    populate wDraws [.gen "A", .gen "B"] (emptyVocab 2 true (1/10) 1)
      = .ok wVocabResult := by
  norm_num [populate, applyPopEntry, generateConstrained, acceptCandidate,
    cosLEb, ldot, emptyVocab, Vocabulary.vectors, wDraws, wVocabResult]

/-- Witness for C2: a concrete two-pointer generation run satisfying the
pairwise similarity bound, a concrete unit draw stream on which three
one-dimensional pointers fail, and a concrete unchecked `add`. -/
theorem C2_similarity_invariant_witness :
    ((0 : ℚ) ≤ 1/10 ∧
      wVocabResult.entries.Pairwise (fun p q =>
        p.generated = true → q.generated = true →
          lcosineSim p.vec q.vec ≤ ((1/10 : ℚ) : ℝ))) ∧
    ((∀ p, ((fun _ : ℕ => [(1 : ℚ)]) p).length = 1 ∧
        ldot ((fun _ : ℕ => [(1 : ℚ)]) p) ((fun _ : ℕ => [(1 : ℚ)]) p) = 1) ∧
      populate (fun _ : ℕ => [(1 : ℚ)]) [.gen "A", .gen "B", .gen "C"]
          (emptyVocab 1 true (1/10) 5) = .error .constraintUnsatisfiable) ∧
    (((emptyVocab 1 true (1/10) 9).add "X" [1]).entries
      = (emptyVocab 1 true (1/10) 9).entries ++ [⟨"X", [1], false⟩]) :=
  ⟨⟨by norm_num,
    C2_similarity_invariant.1 wDraws [.gen "A", .gen "B"] 2 true (1/10) 1
      wVocabResult (by norm_num) wDraws_populate⟩,
   ⟨fun p => ⟨rfl, by norm_num [ldot]⟩,
    C2_similarity_invariant.2.1 (fun _ => [(1 : ℚ)]) true 5
      (fun p => ⟨rfl, by norm_num [ldot]⟩)⟩,
   C2_similarity_invariant.2.2 (emptyVocab 1 true (1/10) 9) "X" [1]⟩

/-! ## Claim C9 -/

/-- The vocabulary obtained by appending a freshly generated pointer. -/
def insertGenerated (vc : Vocabulary) (n : String) (c : List ℚ) (pos' : ℕ) :
    Vocabulary :=
  { vc with entries := vc.entries ++ [⟨n, c, true⟩], rngPos := pos' }

/-- C9: Looking up a name absent from a strict-mode vocabulary (via `parse`)
fails with `UnknownPointerError`; in non-strict mode the same lookup
generates a new pointer under the similarity constraint, inserts it into the
vocabulary, and returns it, so a non-strict lookup observably mutates the
vocabulary. -/
theorem C9_lookup_strictness (draws : ℕ → List ℚ) (vc : Vocabulary) (n : String) :
    (vc.lookup n = none → vc.strict = true →
      vc.parse draws (.sym n) = .error .unknownPointer) ∧
    (vc.lookup n = none → vc.strict = false →
      ∀ c pos',
        generateConstrained draws vc.maxSimilarity vc.vectors vc.rngPos vc.maxTries
            = .ok (c, pos') →
        acceptCandidate vc.maxSimilarity vc.vectors c = true ∧
        vc.parse draws (.sym n) = .ok (c, insertGenerated vc n c pos') ∧
        (insertGenerated vc n c pos').lookup n = some c ∧
        insertGenerated vc n c pos' ≠ vc) := by
  constructor
  · intro hmiss hstrict
    rw [Vocabulary.parse, evalExpr, hmiss, hstrict]
    rfl
  · intro hmiss hstrict c pos' hgen
    refine ⟨(generateConstrained_ok _ _ _ _ _ _ _ hgen).1, ?_, ?_, ?_⟩
    · rw [Vocabulary.parse, evalExpr, hmiss, hstrict]
      simp [hgen, insertGenerated, hstrict]
    · rw [insertGenerated, Vocabulary.lookup]
      rw [Vocabulary.lookup] at hmiss
      have hfind : vc.entries.find? (fun e => e.name = n) = none :=
        Option.map_eq_none'.mp hmiss
      simp [List.find?_append, hfind]
    · intro heq
      have hlen := congrArg (fun v : Vocabulary => v.entries.length) heq
      simp [insertGenerated] at hlen

/-- Witness for C9: a missing name in an empty strict vocabulary fails; the
same lookup in a non-strict vocabulary generates, inserts and returns the
pointer, visibly changing the vocabulary. -/
theorem C9_lookup_strictness_witness :
    ((emptyVocab 1 true (1/10) 5).parse (fun _ => [(1 : ℚ)]) (.sym "Q")
        = .error .unknownPointer) ∧
    (acceptCandidate (emptyVocab 1 false (1/10) 5).maxSimilarity
        (emptyVocab 1 false (1/10) 5).vectors [1] = true ∧
      (emptyVocab 1 false (1/10) 5).parse (fun _ => [(1 : ℚ)]) (.sym "Q")
        = .ok ([1], insertGenerated (emptyVocab 1 false (1/10) 5) "Q" [1] 1) ∧
      (insertGenerated (emptyVocab 1 false (1/10) 5) "Q" [1] 1).lookup "Q"
        = some [1] ∧
      insertGenerated (emptyVocab 1 false (1/10) 5) "Q" [1] 1
        ≠ emptyVocab 1 false (1/10) 5) :=
  ⟨(C9_lookup_strictness (fun _ => [(1 : ℚ)]) (emptyVocab 1 true (1/10) 5) "Q").1
      rfl rfl,
   (C9_lookup_strictness (fun _ => [(1 : ℚ)]) (emptyVocab 1 false (1/10) 5) "Q").2
      rfl rfl [1] 1 rfl⟩

/-! ## Claim C10 -/

/-- C10: For every `populate` entry of the form `name = expression`, the
stored vector is exactly the evaluation result of the expression and is not
normalized to unit length (for instance, the convolution of two unit vectors
has, in general, non-unit norm); a unit-length derived pointer is produced
exactly when the entry explicitly applies `.normalized()`. -/
theorem C10_populate_exact_no_normalization (draws : ℕ → List ℚ)
    (vc : Vocabulary) (n : String) (e : PExpr) :
    (∀ v vc', evalExpr draws e vc = .ok (v, vc') →
      populate draws [.defE n e] vc
        = .ok { vc' with entries := vc'.entries ++ [⟨n, v, false⟩] }) ∧
    (∃ a b : List ℚ, ldot a a = 1 ∧ ldot b b = 1 ∧
      ldot (lconv a b) (lconv a b) ≠ 1) ∧
    (∀ v vc', evalExpr draws (.normalizedE e) vc = .ok (v, vc') →
      ldot v v = 1) := by
  refine ⟨?_, ?_, ?_⟩
  · intro v vc' hev
    rw [populate, applyPopEntry, hev]
    rfl
  · refine ⟨[3/5, 4/5], [3/5, -(4/5)], by norm_num [ldot], by norm_num [ldot], ?_⟩
    have hc : lconv [3/5, 4/5] [3/5, -(4/5)] = [-(7/25), 0] := by
      norm_num [lconv, ldot, List.range_succ]
    rw [hc]
    norm_num [ldot]
  · intro v vc' hev
    rw [evalExpr] at hev
    cases hx : evalExpr draws e vc with
    | error err => simp [hx] at hev
    | ok p =>
      obtain ⟨v1, vc1⟩ := p
      cases hn : lnormalize v1 with
      | error err => simp [hx, hn] at hev
      | ok w =>
        simp only [hx, hn, Except.ok.injEq, Prod.mk.injEq] at hev
        rw [← hev.1]
        exact lnormalize_unit v1 w hn

/-- A concrete two-pointer vocabulary with unit pointers `A`, `B` used by
the C10 witness. -/
def vAB : Vocabulary :=
  ⟨2, true, 1/10, 5, [⟨"A", [3/5, 4/5], true⟩, ⟨"B", [3/5, -(4/5)], true⟩], 2⟩

theorem vAB_lookup_A : vAB.lookup "A" = some [3/5, 4/5] := rfl

theorem vAB_lookup_B : vAB.lookup "B" = some [3/5, -(4/5)] := rfl

theorem vAB_eval_bind :
    evalExpr (fun _ => ([] : List ℚ)) (.bindE (.sym "A") (.sym "B")) vAB
      = .ok ([-(7/25), 0], vAB) := by
  norm_num [evalExpr, vAB_lookup_A, vAB_lookup_B, lconv, ldot, List.range_succ]

theorem vAB_eval_normalized :
    evalExpr (fun _ => ([] : List ℚ)) (.normalizedE (.sym "A")) vAB
      = .ok ([3/5, 4/5], vAB) := by
  have h1 : ldot [3/5, 4/5] [3/5, 4/5] = (1 : ℚ) := by norm_num [ldot]
  have h2 : ratSqrt 1 = some 1 := by
    norm_num [ratSqrt]
  have h3 : lnormalize [3/5, 4/5] = .ok [3/5, 4/5] := by
    rw [lnormalize, h1]
    norm_num [h2, lScale]
  norm_num [evalExpr, vAB_lookup_A, h3]

/-- Witness for C10: storing `C = A * B` in a concrete vocabulary of unit
pointers records exactly the convolution `[-(7/25), 0]` (of non-unit norm),
and an explicit `.normalized()` entry evaluates to a unit vector. -/
theorem C10_populate_exact_no_normalization_witness :
    (populate (fun _ => ([] : List ℚ)) [.defE "C" (.bindE (.sym "A") (.sym "B"))] vAB
      = .ok { vAB with entries := vAB.entries ++ [⟨"C", [-(7/25), 0], false⟩] }) ∧
    (∃ a b : List ℚ, ldot a a = 1 ∧ ldot b b = 1 ∧
      ldot (lconv a b) (lconv a b) ≠ 1) ∧
    ldot [3/5, 4/5] [3/5, 4/5] = 1 :=
  ⟨(C10_populate_exact_no_normalization (fun _ => ([] : List ℚ)) vAB "C"
      (.bindE (.sym "A") (.sym "B"))).1 [-(7/25), 0] vAB vAB_eval_bind,
   (C10_populate_exact_no_normalization (fun _ => ([] : List ℚ)) vAB "C"
      (.bindE (.sym "A") (.sym "B"))).2.1,
   (C10_populate_exact_no_normalization (fun _ => ([] : List ℚ)) vAB "C"
      (.sym "A")).2.2 [3/5, 4/5] vAB vAB_eval_normalized⟩

/-!
## Casting engine (spec §4.5)
-/

/-- A semantic pointer tagged with the vocabulary it belongs to. -/
structure SPointer where
  v : List ℚ
  vocab : Vocabulary
  deriving DecidableEq

/-- Modelled from the spec (§4.5): `reinterpret` requires equal
dimensionality of the source and target vocabularies, returns the identical
vector data tagged as belonging to the target vocabulary, and fails with
`DimensionMismatchError` otherwise. -/
def reinterpret (p : SPointer) (target : Vocabulary) : Except SpaError SPointer :=
  if p.vocab.dim = target.dim then .ok ⟨p.v, target⟩
  else .error .dimensionMismatch

/-- The names shared by two vocabularies, in the source's order. -/
def sharedKeys (s t : Vocabulary) : List String :=
  s.keys.filter (fun n => (t.lookup n).isSome)

/-- The sum over the given names of the outer products
`outer(target[name], source[name])`, as a `target.dim × source.dim` matrix. -/
def outerSumMatrix (s t : Vocabulary) (ks : List String) :
    Matrix (Fin t.dim) (Fin s.dim) ℚ :=
  fun i j =>
    (ks.map (fun n =>
      ((t.lookup n).getD []).getD i.val 0 * ((s.lookup n).getD []).getD j.val 0)).sum

/-- Modelled from the spec (§4.5): `translate` builds the
`target.D × source.D` transform `T = Σ_{name ∈ shared} outer(target[name],
source[name])`, optionally normalized by the number of shared names, keyed by
the shared names unless an explicit mapping is supplied; it fails with
`NoSharedKeysError` when the vocabularies share no names and no explicit
mapping is supplied. -/
def translate (s t : Vocabulary) (normalized : Bool)
    (mapping : Option (List String)) :
    Except SpaError (Matrix (Fin t.dim) (Fin s.dim) ℚ) :=
  match mapping with
  | some ks =>
    .ok ((if normalized then ((ks.length : ℚ))⁻¹ else 1) • outerSumMatrix s t ks)
  | none =>
    if sharedKeys s t = [] then .error .noSharedKeys
    else
      .ok ((if normalized then ((sharedKeys s t).length : ℚ)⁻¹ else 1) •
        outerSumMatrix s t (sharedKeys s t))

/-!
## Action selection (spec §4.6)
-/

/-- One action of an `ActionSelection` block: a (pre-evaluated) scalar
utility and the ordered list of effects to apply when the action wins. -/
structure SpaAction (E : Type) where
  utility : ℚ
  effects : List E

/-- The index of the first maximal element of a list of utilities: ties are
broken in favour of the earlier (first-registered) entry. -/
def firstMaxIdx : List ℚ → Option ℕ
  | [] => none
  | u :: rest =>
    match firstMaxIdx rest with
    | none => some 0
    | some j => if u < rest.getD j 0 then some (j + 1) else some 0

/-- Modelled from the spec (§4.6): `Select` picks the action with maximum
utility, ties broken by first-registered order; if a minimum-utility
threshold is configured and all utilities fall below it, no action fires. -/
def selectAction {E : Type} (acts : List (SpaAction E)) (threshold : Option ℚ) :
    Option ℕ :=
  let us := acts.map (fun a => a.utility)
  match threshold with
  | some θ => if us.all (fun u => decide (u < θ)) then none else firstMaxIdx us
  | none => firstMaxIdx us

/-- Modelled from the spec (§4.6): `Route` evaluates and applies only the
winning action's effects; with no winner it is a no-op. -/
def route {E : Type} (acts : List (SpaAction E)) (threshold : Option ℚ) : List E :=
  match selectAction acts threshold with
  | none => []
  | some i => (acts.map (fun a => a.effects)).getD i []

section FirstMax

theorem firstMaxIdx_cons_none (u : ℚ) (rest : List ℚ) (h : firstMaxIdx rest = none) :
    firstMaxIdx (u :: rest) = some 0 := by
  simp [firstMaxIdx, h]

theorem firstMaxIdx_cons_lt (u : ℚ) (rest : List ℚ) (j : ℕ)
    (h : firstMaxIdx rest = some j) (hc : u < rest.getD j 0) :
    firstMaxIdx (u :: rest) = some (j + 1) := by
  simp only [firstMaxIdx, h]
  exact if_pos hc

theorem firstMaxIdx_cons_ge (u : ℚ) (rest : List ℚ) (j : ℕ)
    (h : firstMaxIdx rest = some j) (hc : ¬ u < rest.getD j 0) :
    firstMaxIdx (u :: rest) = some 0 := by
  simp only [firstMaxIdx, h]
  exact if_neg hc

theorem firstMaxIdx_eq_none_iff (us : List ℚ) : firstMaxIdx us = none ↔ us = [] := by
  cases us with
  | nil => simp [firstMaxIdx]
  | cons u rest =>
    cases h : firstMaxIdx rest with
    | none => simp [firstMaxIdx_cons_none u rest h]
    | some j =>
      by_cases hc : u < rest.getD j 0
      · simp [firstMaxIdx_cons_lt u rest j h hc]
      · simp [firstMaxIdx_cons_ge u rest j h hc]

/-- Correctness of `firstMaxIdx`: the returned index is in range, its
utility is maximal, and every strictly earlier entry is strictly smaller
(so ties go to the first-registered entry). -/
theorem firstMaxIdx_spec (us : List ℚ) (i : ℕ) (h : firstMaxIdx us = some i) :
    i < us.length ∧ (∀ j, j < us.length → us.getD j 0 ≤ us.getD i 0) ∧
      (∀ j, j < i → us.getD j 0 < us.getD i 0) := by
  induction us generalizing i with
  | nil => simp [firstMaxIdx] at h
  | cons u rest ih =>
    cases hr : firstMaxIdx rest with
    | none =>
      rw [firstMaxIdx_cons_none u rest hr] at h
      simp only [Option.some.injEq] at h
      subst h
      have hrest : rest = [] := (firstMaxIdx_eq_none_iff rest).mp hr
      subst hrest
      refine ⟨by simp, ?_, ?_⟩
      · intro j hj
        have hj0 : j = 0 := by simpa [Nat.lt_one_iff] using hj
        subst hj0
        simp
      · intro j hj
        exact absurd hj (Nat.not_lt_zero j)
    | some m =>
      obtain ⟨hm_lt, hm_max, hm_first⟩ := ih m hr
      by_cases hc : u < rest.getD m 0
      · rw [firstMaxIdx_cons_lt u rest m hr hc] at h
        simp only [Option.some.injEq] at h
        subst h
        refine ⟨by simpa using hm_lt, ?_, ?_⟩
        · intro j hj
          cases j with
          | zero => simpa using hc.le
          | succ j' =>
            have hj' : j' < rest.length := by simpa using hj
            simpa using hm_max j' hj'
        · intro j hj
          cases j with
          | zero => simpa using hc
          | succ j' =>
            have hj' : j' < m := by omega
            simpa using hm_first j' hj'
      · rw [firstMaxIdx_cons_ge u rest m hr hc] at h
        simp only [Option.some.injEq] at h
        subst h
        push_neg at hc
        refine ⟨by simp, ?_, ?_⟩
        · intro j hj
          cases j with
          | zero => simp
          | succ j' =>
            have hj' : j' < rest.length := by simpa using hj
            have hle := le_trans (hm_max j' hj') hc
            simpa using hle
        · intro j hj
          exact absurd hj (Nat.not_lt_zero j)

theorem map_getD_of_lt {α β : Type} (f : α → β) (l : List α) (j : ℕ)
    (hj : j < l.length) (d : β) :
    (l.map f).getD j d = f (l.get ⟨j, hj⟩) := by
  simp [List.getD, List.getElem?_eq_getElem hj]

end FirstMax

/-! ## Claim C6 -/

/-- C6: At each evaluation step, action selection picks exactly one action —
the one with maximum utility — with ties broken deterministically by
registration order; if a configured minimum-utility threshold exists and all
utilities are below it, zero actions fire; and only the winning action's
effect expressions are applied, never those of non-winning actions. -/
theorem C6_action_selection {E : Type} (acts : List (SpaAction E))
    (threshold : Option ℚ) :
    ((∃ θ, threshold = some θ ∧ ∀ a ∈ acts, a.utility < θ) →
      selectAction acts threshold = none ∧ route acts threshold = []) ∧
    (acts ≠ [] → (∀ θ, threshold = some θ → ∃ a ∈ acts, θ ≤ a.utility) →
      ∃ i, ∃ h : i < acts.length,
        selectAction acts threshold = some i ∧
        route acts threshold = (acts.get ⟨i, h⟩).effects ∧
        (∀ j, ∀ hj : j < acts.length,
          (acts.get ⟨j, hj⟩).utility ≤ (acts.get ⟨i, h⟩).utility) ∧
        (∀ j, ∀ hj : j < acts.length, j < i →
          (acts.get ⟨j, hj⟩).utility < (acts.get ⟨i, h⟩).utility)) := by
  constructor
  · rintro ⟨θ, rfl, hall⟩
    have hb : (acts.map (fun a => a.utility)).all (fun u => decide (u < θ)) = true := by
      rw [List.all_eq_true]
      intro u hu
      rw [List.mem_map] at hu
      obtain ⟨a, ha, rfl⟩ := hu
      exact decide_eq_true (hall a ha)
    constructor
    · simp [selectAction, hb]
    · simp [route, selectAction, hb]
  · intro hne hsome
    set us := acts.map (fun a => a.utility) with hus
    have hsel : selectAction acts threshold = firstMaxIdx us := by
      cases threshold with
      | none => rfl
      | some θ =>
        obtain ⟨a, ha, hθa⟩ := hsome θ rfl
        have hnall : ¬ (us.all (fun u => decide (u < θ)) = true) := by
          rw [List.all_eq_true]
          push_neg
          refine ⟨a.utility, List.mem_map.mpr ⟨a, ha, rfl⟩, ?_⟩
          simp [not_lt.mpr hθa]
        simp only [selectAction]
        rw [if_neg hnall]
    have husne : us ≠ [] := by
      intro hc
      exact hne (List.map_eq_nil_iff.mp hc)
    cases hfm : firstMaxIdx us with
    | none => exact absurd ((firstMaxIdx_eq_none_iff us).mp hfm) husne
    | some i =>
      obtain ⟨hi_lt, hmax, hfirst⟩ := firstMaxIdx_spec us i hfm
      have hi_lt' : i < acts.length := by simpa [hus] using hi_lt
      refine ⟨i, hi_lt', ?_, ?_, ?_, ?_⟩
      · rw [hsel, hfm]
      · rw [route, hsel, hfm]
        exact map_getD_of_lt _ acts i hi_lt' []
      · intro j hj
        have h1 := hmax j (by simpa [hus] using hj)
        rw [hus, map_getD_of_lt _ acts j hj 0, map_getD_of_lt _ acts i hi_lt' 0] at h1
        exact h1
      · intro j hj hji
        have h1 := hfirst j hji
        rw [hus, map_getD_of_lt _ acts j hj 0, map_getD_of_lt _ acts i hi_lt' 0] at h1
        exact h1

/-- The spec's example pair of actions: `A` with utility 0.8, `B` with
utility 0.3. -/
def wActs : List (SpaAction String) := [⟨0.8, ["routeToA"]⟩, ⟨0.3, ["routeToB"]⟩]

/-- Witness for C6: with no threshold only `A`'s effects apply; with
threshold 1 both utilities are below it and zero actions fire. -/
theorem C6_action_selection_witness :
    (selectAction wActs (some 1) = none ∧ route wActs (some 1) = []) ∧
    (∃ i, ∃ h : i < wActs.length,
      selectAction wActs none = some i ∧
      route wActs none = (wActs.get ⟨i, h⟩).effects ∧
      (∀ j, ∀ hj : j < wActs.length,
        (wActs.get ⟨j, hj⟩).utility ≤ (wActs.get ⟨i, h⟩).utility) ∧
      (∀ j, ∀ hj : j < wActs.length, j < i →
        (wActs.get ⟨j, hj⟩).utility < (wActs.get ⟨i, h⟩).utility)) :=
  ⟨(C6_action_selection wActs (some 1)).1
      ⟨1, rfl, by
        intro a ha
        simp only [wActs, List.mem_cons, List.not_mem_nil, or_false] at ha
        rcases ha with rfl | rfl <;> norm_num⟩,
   (C6_action_selection wActs none).2 (by simp [wActs]) (fun θ h => nomatch h)⟩

/-! ## Claim C7 -/

/-- C7: `reinterpret` requires the source and target vocabularies to have
equal dimensionality: when the dimensions match it returns a vector
bit-identical to its input (only the vocabulary tag changes), and when they
differ it fails with `DimensionMismatchError`. -/
theorem C7_reinterpret (p : SPointer) (t : Vocabulary) :
    (p.vocab.dim = t.dim → reinterpret p t = .ok ⟨p.v, t⟩) ∧
    (p.vocab.dim ≠ t.dim → reinterpret p t = .error .dimensionMismatch) := by
  constructor <;> intro h <;> simp [reinterpret, h]

/-- Witness for C7: a pointer of a 2-dimensional vocabulary reinterpreted
into another 2-dimensional vocabulary keeps its vector unchanged, while
casting it into a 3-dimensional vocabulary fails. -/
theorem C7_reinterpret_witness :
    reinterpret ⟨[1, 2], emptyVocab 2 true (1/10) 9⟩ (emptyVocab 2 false (1/10) 9)
        = .ok ⟨[1, 2], emptyVocab 2 false (1/10) 9⟩ ∧
    reinterpret ⟨[1, 2], emptyVocab 2 true (1/10) 9⟩ (emptyVocab 3 true (1/10) 9)
        = .error .dimensionMismatch :=
  ⟨(C7_reinterpret ⟨[1, 2], emptyVocab 2 true (1/10) 9⟩ (emptyVocab 2 false (1/10) 9)).1 rfl,
   (C7_reinterpret ⟨[1, 2], emptyVocab 2 true (1/10) 9⟩ (emptyVocab 3 true (1/10) 9)).2
     (by simp [emptyVocab])⟩

/-! ## Claim C8 -/

/-- C8: `translate(source, target)` builds a `target.D × source.D` linear
transform equal to the sum over shared names of
`outer(target[name], source[name])` (optionally normalized by the count of
shared names), and fails with `NoSharedKeysError` when the two vocabularies
share no names and no explicit mapping is supplied. -/
theorem C8_translate (s t : Vocabulary) (normalized : Bool) :
    (sharedKeys s t ≠ [] →
      ∃ T, translate s t normalized none = .ok T ∧
        ∀ i j, T i j =
          (if normalized then ((sharedKeys s t).length : ℚ)⁻¹ else 1) *
            ((sharedKeys s t).map (fun n =>
              ((t.lookup n).getD []).getD i.val 0 *
                ((s.lookup n).getD []).getD j.val 0)).sum) ∧
    (sharedKeys s t = [] → translate s t normalized none = .error .noSharedKeys) := by
  constructor
  · intro h
    refine ⟨(if normalized then ((sharedKeys s t).length : ℚ)⁻¹ else 1) •
        outerSumMatrix s t (sharedKeys s t), ?_, fun i j => ?_⟩
    · simp [translate, h]
    · simp only [Matrix.smul_apply, smul_eq_mul, outerSumMatrix]
  · intro h
    simp [translate, h]

/-- A one-entry source vocabulary and a two-dimensional target vocabulary
sharing the name `A`, plus a target sharing nothing, used as the C8
witness. -/
def wSrcVocab : Vocabulary := ⟨1, true, 1/10, 9, [⟨"A", [2], true⟩], 1⟩

def wTgtVocab : Vocabulary := ⟨2, true, 1/10, 9, [⟨"A", [3, 5], true⟩], 1⟩

def wTgtVocabDisjoint : Vocabulary := ⟨2, true, 1/10, 9, [⟨"B", [3, 5], true⟩], 1⟩

/-- Witness for C8: with shared name `A` translation succeeds and the matrix
is the (normalized) outer-product sum; with no shared names it fails. -/
theorem C8_translate_witness :
    (∃ T, translate wSrcVocab wTgtVocab false none = .ok T ∧
      ∀ i j, T i j =
        (if false then ((sharedKeys wSrcVocab wTgtVocab).length : ℚ)⁻¹ else 1) *
          ((sharedKeys wSrcVocab wTgtVocab).map (fun n =>
            ((wTgtVocab.lookup n).getD []).getD i.val 0 *
              ((wSrcVocab.lookup n).getD []).getD j.val 0)).sum) ∧
    translate wSrcVocab wTgtVocabDisjoint false none = .error .noSharedKeys :=
  ⟨(C8_translate wSrcVocab wTgtVocab false).1
      (by simp [sharedKeys, wSrcVocab, wTgtVocab, Vocabulary.keys, Vocabulary.lookup]),
   (C8_translate wSrcVocab wTgtVocabDisjoint false).2
      (by simp [sharedKeys, wSrcVocab, wTgtVocabDisjoint, Vocabulary.keys,
        Vocabulary.lookup])⟩

end NengoSpa
